import Mathlib

/-!
Shallow embedding of the FixedSizeArrayTracker class
(src/fixed_size_array_tracker.cpp, the bool-returning revision at lines
118-221, together with its header) and verification of the specification
claims about it.

Modelling conventions:
* unsigned int values are natural numbers; every arithmetic operation the
  C++ code performs on unsigned int is taken modulo 2^32 (add32, sub32).
* the std::unordered_map<int, std::pair<unsigned,unsigned>> metadata member
  is an association list in iteration order; a fresh key is appended at the
  end. The iteration order of the map compact rebuilds is
  implementation-defined in C++: compactFromOrder takes that order as an
  explicit parameter, and compact is its instance at fill order.
* the std::set<std::pair<unsigned,unsigned>> occupied_intervals member is a
  duplicate-free list kept sorted in lexicographic order by setInsert, with
  List.erase as std::set::erase.
* the double returned by get_usage_percentage is modelled as an exact
  rational number.
-/

def U32 : ℕ := 4294967296

/-- Unsigned 32-bit addition: how the C++ code computes a + b. -/
def add32 (a b : ℕ) : ℕ := (a + b) % U32

/-- Unsigned 32-bit subtraction: how the C++ code computes a - b. -/
def sub32 (a b : ℕ) : ℕ := (a + U32 - b) % U32

/-- State of a FixedSizeArrayTracker: the fixed capacity, the id-to-region
map (in iteration order) and the sorted occupied interval set. -/
structure Tracker where
  size : ℕ
  metadata : List (Int × ℕ × ℕ)
  occupied : List (ℕ × ℕ)
deriving DecidableEq

/-- Lexicographic strict order on intervals, the std::set ordering on
std::pair<unsigned,unsigned>. -/
def lexLtb (p q : ℕ × ℕ) : Bool :=
  decide (p.1 < q.1) || (decide (p.1 = q.1) && decide (p.2 < q.2))

/-- Ordered insertion without duplicates: std::set::insert. -/
def setInsert (x : ℕ × ℕ) : List (ℕ × ℕ) → List (ℕ × ℕ)
  | [] => [x]
  | y :: ys => if lexLtb x y then x :: y :: ys
               else if x = y then y :: ys
               else y :: setInsert x ys

/-- Membership test on the metadata map: metadata.count(id) != 0. -/
def hasId (m : List (Int × ℕ × ℕ)) (id : Int) : Bool :=
  m.any (fun e => e.1 == id)

/-- Lookup on the metadata map: metadata.find(id). -/
def lookupId (m : List (Int × ℕ × ℕ)) (id : Int) : Option (ℕ × ℕ) :=
  (m.find? (fun e => e.1 == id)).map (fun e => e.2)

/-- Deletion from the metadata map: metadata.erase(it). -/
def eraseId (m : List (Int × ℕ × ℕ)) (id : Int) : List (Int × ℕ × ℕ) :=
  m.eraseP (fun e => e.1 == id)

/-- Loop body of FixedSizeArrayTracker::find_contiguous_space: walk the
sorted occupied intervals tracking last_end, return last_end at the first
gap of at least the requested length, and after the loop test the tail gap
against the capacity. All subtractions are unsigned. -/
def find_contiguous_space_loop (size length : ℕ) : ℕ → List (ℕ × ℕ) → Option ℕ
  | last_end, [] => if length ≤ sub32 size last_end then some last_end else none
  | last_end, (s, e) :: rest =>
      if length ≤ sub32 s last_end then some last_end
      else find_contiguous_space_loop size length e rest

/-- FixedSizeArrayTracker::find_contiguous_space (lines 127-144). -/
def find_contiguous_space (t : Tracker) (length : ℕ) : Option ℕ :=
  find_contiguous_space_loop t.size length 0 t.occupied

/-- FixedSizeArrayTracker::add_metadata (lines 146-175): returns the bool
result together with the new state. Rejects a present id, then a range with
start + length > size (computed in unsigned arithmetic), then a range that
collides with an existing interval; otherwise records the entry and inserts
its interval. -/
def add_metadata (t : Tracker) (id : Int) (start length : ℕ) : Bool × Tracker :=
  if hasId t.metadata id then (false, t)
  else if t.size < add32 start length then (false, t)
  else if t.occupied.any
      (fun i => !(decide (add32 start length ≤ i.1) || decide (i.2 ≤ start))) then
    (false, t)
  else
    (true, ⟨t.size, t.metadata ++ [(id, start, length)],
            setInsert (start, add32 start length) t.occupied⟩)

/-- FixedSizeArrayTracker::remove_metadata (lines 177-190): a void method,
modelled as the state transformer. When the id is found, its interval is
erased from the occupied set and the entry from the map; otherwise the
state is untouched. -/
def remove_metadata (t : Tracker) (id : Int) : Tracker :=
  match lookupId t.metadata id with
  | none => t
  | some (s, l) => ⟨t.size, eraseId t.metadata id, t.occupied.erase (s, add32 s l)⟩

/-- FixedSizeArrayTracker::get_metadata (lines 192-198). -/
def get_metadata (t : Tracker) (id : Int) : Option (ℕ × ℕ) :=
  lookupId t.metadata id

/-- First loop of FixedSizeArrayTracker::compact (lines 206-210): walk the
metadata map in its iteration order, reassigning starts contiguously from
the running index, which advances by each entry's length in unsigned
arithmetic. -/
def compact_loop : ℕ → List (Int × ℕ × ℕ) → List (Int × ℕ × ℕ)
  | _, [] => []
  | idx, (id, _, l) :: rest => (id, idx, l) :: compact_loop (add32 idx l) rest

/-- Second loop of compact (lines 213-218): rebuild occupied_intervals from
the rewritten metadata. -/
def buildOccupied (m : List (Int × ℕ × ℕ)) : List (ℕ × ℕ) :=
  m.foldl (fun occ e => setInsert (e.2.1, add32 e.2.1 e.2.2) occ) []

/-- FixedSizeArrayTracker::compact (lines 200-221), reading the rebuilt
map back in the order it was filled. C++ leaves the iteration order of the
freshly built std::unordered_map implementation-defined; compactFromOrder
below exposes that order as an explicit parameter, and this definition is
its fill-order instance. -/
def compact (t : Tracker) : Tracker :=
  ⟨t.size, compact_loop 0 t.metadata, buildOccupied (compact_loop 0 t.metadata)⟩

/-- Body of FixedSizeArrayTracker::compact with the iteration order of the
metadata map made explicit: the parameter is the entry list in whatever
order the std::unordered_map exposes it to the loops, which for a freshly
rebuilt map is implementation-defined and need not be the order in which
compact filled it (any permutation of the stored key-value pairs is
permissible). -/
def compactFromOrder (t : Tracker) (m : List (Int × ℕ × ℕ)) : Tracker :=
  ⟨t.size, compact_loop 0 m, buildOccupied (compact_loop 0 m)⟩

/-- Accumulation loop of FixedSizeArrayTracker::get_usage_percentage
(lines 118-124): used_space += range.second over the metadata map, in
unsigned arithmetic. -/
def used_space (t : Tracker) : ℕ :=
  t.metadata.foldl (fun acc e => add32 acc e.2.2) 0

/-- FixedSizeArrayTracker::get_usage_percentage (lines 118-124), with the
double modelled as an exact rational. -/
def get_usage_percentage (t : Tracker) : ℚ :=
  (used_space t : ℚ) / (t.size : ℚ)

/-- Interval a metadata entry occupies, as spec section 3 describes it:
the half-open range from start to start plus length (exact arithmetic). -/
def entryInterval (e : Int × ℕ × ℕ) : ℕ × ℕ := (e.2.1, e.2.1 + e.2.2)

/-- Mathematical sum of the lengths of all entries. -/
def sumLen (m : List (Int × ℕ × ℕ)) : ℕ := (m.map (fun e => e.2.2)).sum

/-- The state invariants of spec section 3, together with the
representation facts the C++ types guarantee: the capacity fits in an
unsigned int, identifiers are unique (invariant 4), every region lies
within bounds (invariant 1), regions of distinct entries do not overlap
(invariant 2, stated over pairs of live entries as in spec section 8),
the occupied set is strictly sorted (std::set), and occupied equals the
set of regions backed by entries (invariant 3, both inclusions). -/
def Invariant (t : Tracker) : Prop :=
  t.size < U32 ∧
  (t.metadata.map (fun e => e.1)).Nodup ∧
  (∀ e ∈ t.metadata, e.2.1 + e.2.2 ≤ t.size) ∧
  t.metadata.Pairwise (fun a b => a.2.1 + a.2.2 ≤ b.2.1 ∨ b.2.1 + b.2.2 ≤ a.2.1) ∧
  t.occupied.Pairwise (fun p q => p.1 < q.1 ∨ (p.1 = q.1 ∧ p.2 < q.2)) ∧
  (∀ p ∈ t.occupied, ∃ e ∈ t.metadata, p = entryInterval e) ∧
  (∀ e ∈ t.metadata, entryInterval e ∈ t.occupied)

/-- A start is free for a request of the given length when the range fits
inside the capacity and does not overlap any occupied interval, overlap
being the test of spec sections 3 and 4: neither wholly at or before the
other's start nor wholly at or after its end. -/
def FreeRun (t : Tracker) (length s : ℕ) : Prop :=
  s + length ≤ t.size ∧ ∀ p ∈ t.occupied, s + length ≤ p.1 ∨ p.2 ≤ s

instance instDecidableInvariant (t : Tracker) : Decidable (Invariant t) := by
  unfold Invariant
  exact inferInstance

instance instDecidableFreeRun (t : Tracker) (length s : ℕ) :
    Decidable (FreeRun t length s) := by
  unfold FreeRun
  exact inferInstance

theorem sub32_eq {a b : ℕ} (h1 : b ≤ a) (h2 : a < U32) : sub32 a b = a - b := by
  unfold sub32
  have h3 : a + U32 - b = (a - b) + U32 := by omega
  rw [h3, Nat.add_mod_right, Nat.mod_eq_of_lt (by omega)]

theorem add32_eq {a b : ℕ} (h : a + b < U32) : add32 a b = a + b :=
  Nat.mod_eq_of_lt h

/-- C10: on every tracker state, even a completely full one, a request of
length zero is answered with address zero: the very first gap test in
find_contiguous_space trivially succeeds for length zero. -/
theorem find_contiguous_space_zero (t : Tracker) :
    find_contiguous_space t 0 = some 0 := by
  unfold find_contiguous_space
  cases t.occupied with
  | nil => simp [find_contiguous_space_loop]
  | cons p rest =>
      obtain ⟨s, e⟩ := p
      simp [find_contiguous_space_loop]

theorem compact_loop_idem (m : List (Int × ℕ × ℕ)) :
    ∀ i, compact_loop i (compact_loop i m) = compact_loop i m := by
  induction m with
  | nil => intro i; rfl
  | cons e rest ih =>
      intro i
      obtain ⟨id, s, l⟩ := e
      simp only [compact_loop]
      rw [ih (add32 i l)]

/-- C8 counterexample: idempotence of compact is not unconditional. On the
invariant-satisfying, already compacted state below, the rebuilt
std::unordered_map holds ids 1 and 2; if the second compact call walks it
in the reversed order, a permissible implementation-defined iteration order
of the same key-value content, it assigns entry 2 the region (0, 2) instead
of its previous (3, 2): the second call changes the entries map and the
occupied set, so compact twice differs from compact once. -/
theorem compact_reorder_not_idempotent :
    Invariant ⟨10, [(1, 0, 3), (2, 3, 2)], [(0, 3), (3, 5)]⟩ ∧
    List.Perm [(2, 3, 2), (1, 0, 3)]
      (compact ⟨10, [(1, 0, 3), (2, 3, 2)], [(0, 3), (3, 5)]⟩).metadata ∧
    get_metadata (compactFromOrder
        (compact ⟨10, [(1, 0, 3), (2, 3, 2)], [(0, 3), (3, 5)]⟩)
        [(2, 3, 2), (1, 0, 3)]) 2 = some (0, 2) ∧
    get_metadata (compact ⟨10, [(1, 0, 3), (2, 3, 2)], [(0, 3), (3, 5)]⟩) 2
      = some (3, 2) ∧
    compactFromOrder (compact ⟨10, [(1, 0, 3), (2, 3, 2)], [(0, 3), (3, 5)]⟩)
        [(2, 3, 2), (1, 0, 3)]
      ≠ compact ⟨10, [(1, 0, 3), (2, 3, 2)], [(0, 3), (3, 5)]⟩ := by
  decide

/-- C8 amended: compact twice equals compact once provided the second call
walks the rebuilt map in the order the first call filled it; then the
second pass sees the same entry order and lengths, reassigns identical
starts, and rebuilds the identical occupied set. C++ does not guarantee
that iteration order for a freshly built std::unordered_map. -/
theorem compact_idempotent_fill_order (t : Tracker) :
    compactFromOrder (compact t) (compact t).metadata = compact t := by
  show (⟨t.size, compact_loop 0 (compact_loop 0 t.metadata),
      buildOccupied (compact_loop 0 (compact_loop 0 t.metadata))⟩ : Tracker)
    = ⟨t.size, compact_loop 0 t.metadata, buildOccupied (compact_loop 0 t.metadata)⟩
  rw [compact_loop_idem]

/-- C6: remove_metadata of an absent id performs no mutation at all, shown
at the failing input of the claim (the claim also says the call reports
false to the caller, but the C++ method has return type void and reports
nothing). -/
theorem remove_metadata_absent_id_no_mutation :
    remove_metadata ⟨10, [(1, 2, 3)], [(2, 5)]⟩ 7 = ⟨10, [(1, 2, 3)], [(2, 5)]⟩ := by
  decide

/-- C1: evaluation at the failing input. Two zero-length entries at the
same position share the single occupied interval in the std::set; removing
the first erases that interval while the second entry still references it,
so afterwards the occupied set is empty although the entries map is not:
invariant 3 of spec section 3 is violated by a reachable state. -/
theorem zero_length_remove_breaks_invariant :
    remove_metadata (add_metadata (add_metadata ⟨10, [], []⟩ 1 5 0).2 2 5 0).2 1
      = ⟨10, [(2, 5, 0)], []⟩ ∧
    ¬ Invariant ⟨10, [(2, 5, 0)], []⟩ := by
  constructor
  · decide
  · intro h
    exact absurd (h.2.2.2.2.2.2 (2, 5, 0) (by decide)) (by decide)

/-- C3: evaluation at the failing input. With start 4294967295 and length 2
the bounds test start + length > size is computed in unsigned arithmetic and
wraps to 1, so the call is accepted and recorded although the range
mathematically exceeds the capacity 10; the claim requires an OutOfBounds
rejection with no mutation here. -/
theorem overflow_accepts_out_of_bounds :
    (add_metadata ⟨10, [], []⟩ 0 4294967295 2).1 = true ∧
    (add_metadata ⟨10, [], []⟩ 0 4294967295 2).2.metadata = [(0, 4294967295, 2)] ∧
    10 < 4294967295 + 2 := by
  refine ⟨by decide, by decide, by decide⟩

/-- C4: evaluation at the failing input. On a state satisfying all
invariants whose map iteration order is id 1 (start 5) before id 2
(start 0), compact assigns new starts in that iteration order, so entry 2,
which lay before entry 1, ends up after it: the relative order by
pre-compaction start is not preserved, against the requirement to walk the
entries sorted by current start. -/
theorem compact_does_not_sort_by_start :
    Invariant ⟨10, [(1, 5, 3), (2, 0, 2)], [(0, 2), (5, 8)]⟩ ∧
    get_metadata ⟨10, [(1, 5, 3), (2, 0, 2)], [(0, 2), (5, 8)]⟩ 1 = some (5, 3) ∧
    get_metadata ⟨10, [(1, 5, 3), (2, 0, 2)], [(0, 2), (5, 8)]⟩ 2 = some (0, 2) ∧
    compact ⟨10, [(1, 5, 3), (2, 0, 2)], [(0, 2), (5, 8)]⟩
      = ⟨10, [(1, 0, 3), (2, 3, 2)], [(0, 3), (3, 5)]⟩ := by
  refine ⟨?_, by decide, by decide, by decide⟩
  refine ⟨by decide, by decide, by decide, by decide, by decide, by decide, by decide⟩

theorem lookupId_none_forall {m : List (Int × ℕ × ℕ)} {id : Int}
    (h : lookupId m id = none) : ∀ e ∈ m, (e.1 == id) = false := by
  unfold lookupId at h
  rw [Option.map_eq_none'] at h
  intro e he
  have := List.find?_eq_none.mp h e he
  simpa using this

theorem lookupId_append_self {m : List (Int × ℕ × ℕ)} {id : Int} {s l : ℕ}
    (h : ∀ e ∈ m, (e.1 == id) = false) :
    lookupId (m ++ [(id, s, l)]) id = some (s, l) := by
  unfold lookupId
  rw [List.find?_append]
  have hm : m.find? (fun e => e.1 == id) = none :=
    List.find?_eq_none.mpr (by intro e he; simp [h e he])
  rw [hm]
  simp [List.find?]

theorem eraseId_append_self {m : List (Int × ℕ × ℕ)} {id : Int} {s l : ℕ}
    (h : ∀ e ∈ m, (e.1 == id) = false) :
    eraseId (m ++ [(id, s, l)]) id = m := by
  unfold eraseId
  rw [List.eraseP_append_right _ (by intro e he; simp [h e he])]
  simp [List.eraseP]

theorem erase_setInsert (x : ℕ × ℕ) (occ : List (ℕ × ℕ)) (h : x ∉ occ) :
    (setInsert x occ).erase x = occ := by
  induction occ with
  | nil => simp [setInsert]
  | cons y ys ih =>
      have hxy : x ≠ y := by
        intro hx
        exact h (hx ▸ List.mem_cons_self x ys)
      have hxys : x ∉ ys := fun hx => h (List.mem_cons_of_mem y hx)
      simp only [setInsert]
      by_cases hlt : lexLtb x y = true
      · rw [if_pos hlt]
        exact List.erase_cons_head x (y :: ys)
      · rw [if_neg hlt, if_neg hxy,
          List.erase_cons_tail (by simpa using Ne.symm hxy), ih hxys]

/-- C7 counterexample: on the invariant-satisfying state with one
zero-length entry at 5, the id 2 is absent and add_metadata(2, 5, 0)
succeeds, yet removing id 2 again does not restore the prior state: the
shared interval (5, 5) is erased from the std::set although entry 1 still
references it. -/
theorem insert_remove_not_roundtrip_zero_length :
    Invariant ⟨10, [(1, 5, 0)], [(5, 5)]⟩ ∧
    lookupId [(1, 5, 0)] 2 = none ∧
    (add_metadata ⟨10, [(1, 5, 0)], [(5, 5)]⟩ 2 5 0).1 = true ∧
    remove_metadata (add_metadata ⟨10, [(1, 5, 0)], [(5, 5)]⟩ 2 5 0).2 2
      ≠ ⟨10, [(1, 5, 0)], [(5, 5)]⟩ := by
  decide

/-- C7 amended: on every state satisfying the invariants, for an id not
currently present and a region of positive length (length and start being
unsigned int values), a successful add_metadata followed immediately by
remove_metadata of the same id restores exactly the prior entries map and
occupied set. -/
theorem insert_remove_roundtrip (t : Tracker) (id : Int) (s l : ℕ)
    (hinv : Invariant t) (hid : lookupId t.metadata id = none)
    (hl : 0 < l) (hlU : l < U32)
    (hsucc : (add_metadata t id s l).1 = true) :
    remove_metadata (add_metadata t id s l).2 id = t := by
  obtain ⟨n, m, occ⟩ := t
  have hkeys : ∀ e ∈ m, (e.1 == id) = false := lookupId_none_forall hid
  have h1 : hasId m id = false := by
    unfold hasId
    rw [List.any_eq_false]
    intro e he
    simp [hkeys e he]
  rw [add_metadata] at hsucc
  rw [if_neg (by simp [h1])] at hsucc
  by_cases h2 : n < add32 s l
  · rw [if_pos h2] at hsucc
    simp at hsucc
  rw [if_neg h2] at hsucc
  by_cases h3 : (occ.any
      (fun i => !(decide (add32 s l ≤ i.1) || decide (i.2 ≤ s)))) = true
  · rw [if_pos h3] at hsucc
    simp at hsucc
  have hadd : add_metadata ⟨n, m, occ⟩ id s l
      = (true, ⟨n, m ++ [(id, s, l)], setInsert (s, add32 s l) occ⟩) := by
    rw [add_metadata, if_neg (by simp [h1]), if_neg h2, if_neg h3]
  rw [hadd]
  have hall : ∀ i ∈ occ, add32 s l ≤ i.1 ∨ i.2 ≤ s := by
    rw [Bool.not_eq_true, List.any_eq_false] at h3
    intro i hi
    have h' := h3 i hi
    rcases le_or_lt (add32 s l) i.1 with hc | hc
    · exact Or.inl hc
    · right
      simp at h'
      exact h' hc
  have hnotmem : (s, add32 s l) ∉ occ := by
    intro hmem
    obtain ⟨e, _, heq⟩ := hinv.2.2.2.2.2.1 _ hmem
    have hse : s ≤ add32 s l := by
      have h1' : s = e.2.1 := congrArg Prod.fst heq
      have h2' : add32 s l = e.2.1 + e.2.2 := congrArg Prod.snd heq
      omega
    have hles : add32 s l ≤ s := by
      rcases hall _ hmem with h | h
      · exact h
      · exact h
    have : add32 s l = s := le_antisymm hles hse
    unfold add32 U32 at this
    unfold U32 at hlU
    omega
  unfold remove_metadata
  rw [lookupId_append_self hkeys]
  simp only
  rw [eraseId_append_self hkeys, erase_setInsert _ _ hnotmem]

/-- C7 amended, witness: inserting id 1 at start 0 with length 4 into the
empty capacity-10 tracker and removing it again restores the empty
tracker. -/
theorem insert_remove_roundtrip_witness :
    remove_metadata (add_metadata ⟨10, [], []⟩ 1 0 4).2 1 = ⟨10, [], []⟩ :=
  insert_remove_roundtrip ⟨10, [], []⟩ 1 0 4 (by decide) (by decide)
    (by decide) (by decide) (by decide)

theorem inv_occ_wf {t : Tracker} (h : Invariant t) :
    ∀ p ∈ t.occupied, p.1 ≤ p.2 ∧ p.2 ≤ t.size := by
  intro p hp
  obtain ⟨e, he, rfl⟩ := h.2.2.2.2.2.1 p hp
  exact ⟨Nat.le_add_right _ _, h.2.2.1 e he⟩

theorem inv_occ_sep {t : Tracker} (h : Invariant t) :
    t.occupied.Pairwise (fun p q => p.2 ≤ q.1) := by
  refine List.Pairwise.imp_of_mem ?_ h.2.2.2.2.1
  intro p q hp hq hlex
  obtain ⟨ep, hep, rfl⟩ := h.2.2.2.2.2.1 p hp
  obtain ⟨eq, heq, rfl⟩ := h.2.2.2.2.2.1 q hq
  have hne : ep ≠ eq := by
    intro hcontra
    subst hcontra
    unfold entryInterval at hlex
    rcases hlex with h1 | ⟨h1, h2⟩ <;> omega
  have hsymm : Symmetric
      (fun (a b : Int × ℕ × ℕ) => a.2.1 + a.2.2 ≤ b.2.1 ∨ b.2.1 + b.2.2 ≤ a.2.1) :=
    fun a b hab => hab.symm
  have hR := List.Pairwise.forall hsymm h.2.2.2.1 hep heq hne
  rcases hR with hR | hR
  · exact hR
  · exfalso
    unfold entryInterval at hlex
    rcases hlex with h1 | ⟨h1, h2⟩ <;> omega

theorem find_loop_spec (size L : ℕ) (hsz : size < U32) (occ : List (ℕ × ℕ)) :
    ∀ le : ℕ,
    (∀ p ∈ occ, p.1 ≤ p.2 ∧ p.2 ≤ size) →
    occ.Pairwise (fun p q => p.2 ≤ q.1) →
    (∀ p ∈ occ, le ≤ p.1) →
    le ≤ size →
    ((∀ s, find_contiguous_space_loop size L le occ = some s →
        le ≤ s ∧ s + L ≤ size ∧ (∀ p ∈ occ, s + L ≤ p.1 ∨ p.2 ≤ s) ∧
        (∀ u, le ≤ u → u + L ≤ size → (∀ p ∈ occ, u + L ≤ p.1 ∨ p.2 ≤ u) → s ≤ u)) ∧
     (find_contiguous_space_loop size L le occ = none →
        ∀ u, le ≤ u → u + L ≤ size → ¬ (∀ p ∈ occ, u + L ≤ p.1 ∨ p.2 ≤ u))) := by
  induction occ with
  | nil =>
      intro le hwf hpw hle hle2
      have hs : sub32 size le = size - le := sub32_eq hle2 hsz
      constructor
      · intro s hseq
        simp only [find_contiguous_space_loop, hs] at hseq
        by_cases hgap : L ≤ size - le
        · rw [if_pos hgap] at hseq
          obtain rfl := Option.some.inj hseq
          refine ⟨le_refl _, by omega, by simp, fun u hu _ _ => hu⟩
        · rw [if_neg hgap] at hseq
          exact absurd hseq (by simp)
      · intro hnone u hu huL _
        simp only [find_contiguous_space_loop, hs] at hnone
        by_cases hgap : L ≤ size - le
        · rw [if_pos hgap] at hnone
          exact absurd hnone (by simp)
        · omega
  | cons hd rest ih =>
      intro le hwf hpw hle hle2
      obtain ⟨s1, e1⟩ := hd
      have hhd1 : s1 ≤ e1 := (hwf (s1, e1) (List.mem_cons_self _ _)).1
      have hhd2 : e1 ≤ size := (hwf (s1, e1) (List.mem_cons_self _ _)).2
      have hles1 : le ≤ s1 := hle (s1, e1) (List.mem_cons_self _ _)
      have hs : sub32 s1 le = s1 - le := sub32_eq hles1 (by omega)
      rw [List.pairwise_cons] at hpw
      obtain ⟨hsephd, hpw'⟩ := hpw
      have hloopeq : find_contiguous_space_loop size L le ((s1, e1) :: rest)
          = if L ≤ s1 - le then some le
            else find_contiguous_space_loop size L e1 rest := by
        simp only [find_contiguous_space_loop, hs]
      by_cases hgap : L ≤ s1 - le
      · constructor
        · intro s hseq
          rw [hloopeq, if_pos hgap] at hseq
          obtain rfl := Option.some.inj hseq
          refine ⟨le_refl _, by omega, ?_, fun u hu _ _ => hu⟩
          intro p hp
          rcases List.mem_cons.mp hp with rfl | hp'
          · left
            show le + L ≤ s1
            omega
          · left
            have hg := hsephd p hp'
            omega
        · intro hnone
          rw [hloopeq, if_pos hgap] at hnone
          exact absurd hnone (by simp)
      · have ihx := ih e1 (fun p hp => hwf p (List.mem_cons_of_mem _ hp)) hpw'
          hsephd hhd2
        obtain ⟨ihsome, ihnone⟩ := ihx
        constructor
        · intro s hseq
          rw [hloopeq, if_neg hgap] at hseq
          obtain ⟨ih1, ih2, ih3, ih4⟩ := ihsome s hseq
          refine ⟨by omega, ih2, ?_, ?_⟩
          · intro p hp
            rcases List.mem_cons.mp hp with rfl | hp'
            · right
              show e1 ≤ s
              omega
            · exact ih3 p hp'
          · intro u hu huL hall
            rcases hall (s1, e1) (List.mem_cons_self _ _) with hcase | hcase
            · exfalso
              have hcase' : u + L ≤ s1 := hcase
              omega
            · have hcase' : e1 ≤ u := hcase
              exact ih4 u hcase' huL (fun p hp => hall p (List.mem_cons_of_mem _ hp))
        · intro hnone
          rw [hloopeq, if_neg hgap] at hnone
          intro u hu huL hall
          rcases hall (s1, e1) (List.mem_cons_self _ _) with hcase | hcase
          · have hcase' : u + L ≤ s1 := hcase
            omega
          · have hcase' : e1 ≤ u := hcase
            exact ihnone hnone u hcase' huL
              (fun p hp => hall p (List.mem_cons_of_mem _ hp))

/-- C2: on every state satisfying the invariants, find_contiguous_space
returns some s exactly when a free start exists, and then s is the lowest
free start: s plus the requested length fits within the capacity, the range
overlaps no occupied interval (overlap as defined in spec sections 3 and 4),
and every other free start is at least s; when it returns none, no free
start of that length exists anywhere in the array. -/
theorem find_contiguous_space_correct (t : Tracker) (L : ℕ) (h : Invariant t) :
    (∀ s, find_contiguous_space t L = some s →
        FreeRun t L s ∧ ∀ u, FreeRun t L u → s ≤ u) ∧
    (find_contiguous_space t L = none → ∀ u, ¬ FreeRun t L u) := by
  obtain ⟨hsome, hnone⟩ := find_loop_spec t.size L h.1 t.occupied 0
    (inv_occ_wf h) (inv_occ_sep h) (fun p _ => Nat.zero_le _) (Nat.zero_le _)
  constructor
  · intro s hs
    obtain ⟨_, h2, h3, h4⟩ := hsome s hs
    exact ⟨⟨h2, h3⟩, fun u hu => h4 u (Nat.zero_le _) hu.1 hu.2⟩
  · intro hn u hu
    exact hnone hn u (Nat.zero_le _) hu.1 hu.2

/-- C2 witness: on the capacity-10 tracker occupied by one region from 2
to 5, the theorem applies; find_contiguous_space of length 3 returns the
lowest free start. -/
theorem find_contiguous_space_correct_witness :
    (∀ s, find_contiguous_space ⟨10, [(1, 2, 3)], [(2, 5)]⟩ 3 = some s →
        FreeRun ⟨10, [(1, 2, 3)], [(2, 5)]⟩ 3 s ∧
        ∀ u, FreeRun ⟨10, [(1, 2, 3)], [(2, 5)]⟩ 3 u → s ≤ u) ∧
    (find_contiguous_space ⟨10, [(1, 2, 3)], [(2, 5)]⟩ 3 = none →
        ∀ u, ¬ FreeRun ⟨10, [(1, 2, 3)], [(2, 5)]⟩ 3 u) :=
  find_contiguous_space_correct ⟨10, [(1, 2, 3)], [(2, 5)]⟩ 3 (by decide)

/-- C5: on every state satisfying the invariants, for an id not currently
present, if find_contiguous_space returns some s for a length L, then
add_metadata at id, s, L immediately afterwards succeeds. -/
theorem find_then_insert_succeeds (t : Tracker) (id : Int) (L s : ℕ)
    (h : Invariant t) (hid : lookupId t.metadata id = none)
    (hf : find_contiguous_space t L = some s) :
    (add_metadata t id s L).1 = true := by
  obtain ⟨hsome, _⟩ := find_loop_spec t.size L h.1 t.occupied 0
    (inv_occ_wf h) (inv_occ_sep h) (fun p _ => Nat.zero_le _) (Nat.zero_le _)
  obtain ⟨_, h2, h3, _⟩ := hsome s hf
  have hadd : add32 s L = s + L := add32_eq (by have := h.1; omega)
  have h1 : hasId t.metadata id = false := by
    unfold hasId
    rw [List.any_eq_false]
    intro e he
    simp [lookupId_none_forall hid e he]
  rw [add_metadata, if_neg (by simp [h1]), if_neg (by rw [hadd]; omega),
    if_neg ?hany]
  case hany =>
    rw [Bool.not_eq_true, List.any_eq_false]
    intro p hp
    rcases h3 p hp with hc | hc
    · simp [hadd, hc]
    · simp [hadd, hc]

/-- C5 witness: with the capacity-10 tracker occupied from 2 to 5,
find_contiguous_space 3 returns some 5, and add_metadata(2, 5, 3) indeed
succeeds. -/
theorem find_then_insert_succeeds_witness :
    (add_metadata ⟨10, [(1, 2, 3)], [(2, 5)]⟩ 2 5 3).1 = true :=
  find_then_insert_succeeds ⟨10, [(1, 2, 3)], [(2, 5)]⟩ 2 3 5
    (by decide) (by decide) (by decide)

theorem foldl_add32_eq (m : List (Int × ℕ × ℕ)) :
    ∀ acc, acc + sumLen m < U32 →
      m.foldl (fun a e => add32 a e.2.2) acc = acc + sumLen m := by
  induction m with
  | nil =>
      intro acc _
      simp [sumLen]
  | cons e rest ih =>
      intro acc h
      have hsl : sumLen (e :: rest) = e.2.2 + sumLen rest := by
        simp [sumLen]
      rw [hsl] at h
      simp only [List.foldl_cons]
      rw [show add32 acc e.2.2 = acc + e.2.2 from add32_eq (by omega)]
      rw [ih (acc + e.2.2) (by omega), hsl]
      omega

theorem sumLen_le_size {t : Tracker} (h : Invariant t) :
    sumLen t.metadata ≤ t.size := by
  obtain ⟨hsz, hkeys, hbound, hpw, _, _, _⟩ := h
  have hnd : t.metadata.Nodup := List.Nodup.of_map _ hkeys
  have hdisj : ∀ x ∈ t.metadata.toFinset, ∀ y ∈ t.metadata.toFinset, x ≠ y →
      Disjoint (Finset.Ico x.2.1 (x.2.1 + x.2.2))
        (Finset.Ico y.2.1 (y.2.1 + y.2.2)) := by
    intro x hx y hy hxy
    have hx2 : x ∈ t.metadata := List.mem_toFinset.mp hx
    have hy2 : y ∈ t.metadata := List.mem_toFinset.mp hy
    have hsymm : Symmetric
        (fun (a b : Int × ℕ × ℕ) => a.2.1 + a.2.2 ≤ b.2.1 ∨ b.2.1 + b.2.2 ≤ a.2.1) :=
      fun a b hab => hab.symm
    have hR := List.Pairwise.forall hsymm hpw hx2 hy2 hxy
    rw [Finset.disjoint_left]
    intro a ha hb
    rw [Finset.mem_Ico] at ha hb
    rcases hR with hR | hR <;> omega
  have hcard := Finset.card_biUnion hdisj
  have hsub : (t.metadata.toFinset.biUnion
      fun e => Finset.Ico e.2.1 (e.2.1 + e.2.2)) ⊆ Finset.range t.size := by
    intro a ha
    rw [Finset.mem_biUnion] at ha
    obtain ⟨e, he, hae⟩ := ha
    rw [Finset.mem_Ico] at hae
    have := hbound e (List.mem_toFinset.mp he)
    rw [Finset.mem_range]
    omega
  have hle := Finset.card_le_card hsub
  rw [Finset.card_range, hcard] at hle
  have hcards : ∀ e ∈ t.metadata.toFinset,
      (Finset.Ico e.2.1 (e.2.1 + e.2.2)).card = e.2.2 := by
    intro e _
    rw [Nat.card_Ico]
    omega
  rw [Finset.sum_congr rfl hcards] at hle
  have hsum : t.metadata.toFinset.sum (fun e => e.2.2) = sumLen t.metadata := by
    unfold sumLen
    exact List.sum_toFinset _ hnd
  rw [hsum] at hle
  exact hle

/-- C9: on every tracker with positive capacity whose state satisfies the
invariants, get_usage_percentage equals the sum of all entry lengths
divided by the capacity, lies between 0 and 1, and is 0 on an empty
entries map. -/
theorem get_usage_percentage_correct (t : Tracker) (hN : 0 < t.size)
    (h : Invariant t) :
    get_usage_percentage t = (sumLen t.metadata : ℚ) / (t.size : ℚ) ∧
    0 ≤ get_usage_percentage t ∧ get_usage_percentage t ≤ 1 ∧
    (t.metadata = [] → get_usage_percentage t = 0) := by
  have hsum := sumLen_le_size h
  have hU : sumLen t.metadata < U32 := lt_of_le_of_lt hsum h.1
  have heq : used_space t = sumLen t.metadata := by
    unfold used_space
    have hfold := foldl_add32_eq t.metadata 0 (by omega)
    simpa using hfold
  refine ⟨?_, ?_, ?_, ?_⟩
  · unfold get_usage_percentage
    rw [heq]
  · unfold get_usage_percentage
    positivity
  · unfold get_usage_percentage
    rw [heq, div_le_one (by exact_mod_cast hN)]
    exact_mod_cast hsum
  · intro hempty
    unfold get_usage_percentage used_space
    rw [hempty]
    simp

/-- C9 witness: on the capacity-10 tracker with the single entry of length
3, the usage facts hold; the ratio is 3 divided by 10. -/
theorem get_usage_percentage_correct_witness :
    get_usage_percentage ⟨10, [(1, 2, 3)], [(2, 5)]⟩
      = (sumLen (⟨10, [(1, 2, 3)], [(2, 5)]⟩ : Tracker).metadata : ℚ)
        / ((⟨10, [(1, 2, 3)], [(2, 5)]⟩ : Tracker).size : ℚ) ∧
    0 ≤ get_usage_percentage ⟨10, [(1, 2, 3)], [(2, 5)]⟩ ∧
    get_usage_percentage ⟨10, [(1, 2, 3)], [(2, 5)]⟩ ≤ 1 ∧
    ((⟨10, [(1, 2, 3)], [(2, 5)]⟩ : Tracker).metadata = [] →
      get_usage_percentage ⟨10, [(1, 2, 3)], [(2, 5)]⟩ = 0) :=
  get_usage_percentage_correct ⟨10, [(1, 2, 3)], [(2, 5)]⟩ (by decide) (by decide)
